import Mathlib

/-!
Verification of the deterministic discrete-event simulator in
fdb-summit-talk/simulation.actor.cpp: the record/replay randomness
oracles, the byte encoding of draws, the scheduler (virtual clock,
InOrder heap dispatch, RandomOrder dispatch), buggification, and the
fuzz-driver boundary.

Doubles are modelled as exact rationals (ℚ); machine integers as ℕ/ℤ
(the int64 arithmetic in the oracles never overflows for int32-range
arguments); byte strings as lists of naturals below 256.
-/

deriving instance DecidableEq for Except

namespace Simulation

/-! ## Bytes and little-endian encoding -/

/-- A byte string is well formed when every entry is an actual byte. -/
def BytesWF (s : List ℕ) : Prop := ∀ b ∈ s, b < 256

instance : DecidablePred BytesWF := fun s =>
  inferInstanceAs (Decidable (∀ b ∈ s, b < 256))

/-- Little-endian value of a byte list (the `memcpy` into an unsigned
integer on a little-endian machine). -/
def leVal : List ℕ → ℕ
  | [] => 0
  | b :: rest => b + 256 * leVal rest

/-- The `k` low-order bytes of `n`, little endian (how
`std::string_view(reinterpret_cast<char*>(&n), k)` reads an unsigned
value on a little-endian machine). -/
def toLEBytes : ℕ → ℕ → List ℕ
  | 0, _ => []
  | k + 1, n => n % 256 :: toLEBytes k (n / 256)

theorem toLEBytes_length (k n : ℕ) : (toLEBytes k n).length = k := by
  induction k generalizing n with
  | zero => rfl
  | succ k ih => simp [toLEBytes, ih]

theorem toLEBytes_wf (k n : ℕ) : BytesWF (toLEBytes k n) := by
  induction k generalizing n with
  | zero => intro b hb; simp [toLEBytes] at hb
  | succ k ih =>
    intro b hb
    simp only [toLEBytes, List.mem_cons] at hb
    rcases hb with h | h
    · subst h; exact Nat.mod_lt _ (by norm_num)
    · exact ih _ b h

theorem leVal_toLEBytes (k n : ℕ) (h : n < 256 ^ k) :
    leVal (toLEBytes k n) = n := by
  induction k generalizing n with
  | zero => simp [toLEBytes, leVal]; omega
  | succ k ih =>
    have hdiv : n / 256 < 256 ^ k := by
      rw [Nat.div_lt_iff_lt_mul (by norm_num)]
      calc n < 256 ^ (k + 1) := h
        _ = 256 ^ k * 256 := by ring
    simp [toLEBytes, leVal, ih (n / 256) hdiv]
    omega

/-! ## bytesRequired (simulation.actor.cpp lines 39–47)

`int bytesRequired(int64_t denom)` counts how many times `denom` can be
shifted right by 8 bits before reaching zero. -/

/-- Number of bytes needed to hold `denom` (the loop
`while (denom > 0) { result++; denom >>= 8; }`). -/
def bytesRequired (denom : ℕ) : ℕ :=
  if denom = 0 then 0 else bytesRequired (denom / 256) + 1
  decreasing_by exact Nat.div_lt_self (Nat.pos_of_ne_zero (by assumption)) (by norm_num)

theorem bytesRequired_zero : bytesRequired 0 = 0 := by
  rw [bytesRequired]; simp

theorem bytesRequired_of_ne_zero (d : ℕ) (h : d ≠ 0) :
    bytesRequired d = bytesRequired (d / 256) + 1 := by
  rw [bytesRequired]; simp [h]

/-- Every positive `d` fits strictly below `256 ^ bytesRequired d`. -/
theorem lt_pow_bytesRequired (d : ℕ) : d < 256 ^ bytesRequired d := by
  induction d using Nat.strong_induction_on with
  | _ d ih =>
    by_cases h : d = 0
    · subst h; simp [bytesRequired_zero]
    · rw [bytesRequired_of_ne_zero d h]
      have hlt : d / 256 < d :=
        Nat.div_lt_self (Nat.pos_of_ne_zero h) (by norm_num)
      have := ih (d / 256) hlt
      have h256 : d / 256 + 1 ≤ 256 ^ bytesRequired (d / 256) := this
      calc d < 256 * (d / 256) + 256 := by
              have := Nat.mod_lt d (y := 256) (by norm_num)
              have := Nat.div_add_mod d 256
              omega
        _ ≤ 256 * 256 ^ bytesRequired (d / 256) := by nlinarith
        _ = 256 ^ (bytesRequired (d / 256) + 1) := by ring

/-- `bytesRequired` is exactly `⌊log₂₅₆ d⌋ + 1` for positive `d`. -/
theorem bytesRequired_eq_log (d : ℕ) (h : d ≠ 0) :
    bytesRequired d = Nat.log 256 d + 1 := by
  induction d using Nat.strong_induction_on with
  | _ d ih =>
    rw [bytesRequired_of_ne_zero d h]
    by_cases hsmall : d < 256
    · rw [Nat.div_eq_of_lt hsmall, bytesRequired_zero]
      have : Nat.log 256 d = 0 := Nat.log_eq_zero_iff.2 (Or.inl hsmall)
      omega
    · push_neg at hsmall
      have hdne : d / 256 ≠ 0 := by
        have : 1 ≤ d / 256 := (Nat.one_le_div_iff (by norm_num)).2 hsmall
        omega
      have hlt : d / 256 < d :=
        Nat.div_lt_self (by omega) (by norm_num)
      rw [ih (d / 256) hlt hdne, Nat.log_div_base 256 d]
      have : 1 ≤ Nat.log 256 d := by
        rw [Nat.one_le_iff_ne_zero, Ne, Nat.log_eq_zero_iff]
        push_neg
        constructor <;> omega
      omega

/-! ## ReplayRandomBytes (simulation.actor.cpp lines 69–94)

The replay oracle holds a byte view; `consumeBytes(size)` hands out the
first `size` bytes and advances the cursor, or throws `EndSimulation`
when fewer than `size` bytes remain — leaving the view untouched. -/

/-- The exception type thrown on buffer exhaustion (`struct EndSimulation`). -/
inductive EndSimulation where
  | mk
  deriving DecidableEq

/-- `ReplayRandomBytes::consumeBytes`: returns the consumed prefix and
the updated view, or fails with `EndSimulation` leaving the view as it
was (the length check precedes any mutation). -/
def consumeBytes (s : List ℕ) (size : ℕ) :
    Except EndSimulation (List ℕ × List ℕ) :=
  if size ≤ s.length then .ok (s.take size, s.drop size) else .error .mk

/-- `ReplayRandomBytes::random01`: consume 4 bytes, read them as a
little-endian `uint32_t` `u`, return `u / numeric_limits<uint32_t>::max()`,
i.e. `u / (2^32 - 1)`. -/
def replayRandom01 (s : List ℕ) : Except EndSimulation (ℚ × List ℕ) :=
  match consumeBytes s 4 with
  | .error e => .error e
  | .ok (bytes4, rest) => .ok ((leVal bytes4 : ℚ) / (2 ^ 32 - 1), rest)

/-- `std::clamp(v, lo, hi)` for integers. -/
def clampZ (v lo hi : ℤ) : ℤ := max lo (min v hi)

/-- `ReplayRandomBytes::randomInt`: consume `bytesRequired(hi - lo)`
bytes as a little-endian numerator, return
`clamp(lo + numerator, lo, hi - 1)` (int64 arithmetic, which never
overflows for int32-range `lo`, `hi`). -/
def replayRandomInt (lo hi : ℤ) (s : List ℕ) :
    Except EndSimulation (ℤ × List ℕ) :=
  match consumeBytes s (bytesRequired (hi - lo).toNat) with
  | .error e => .error e
  | .ok (numBytes, rest) =>
      .ok (clampZ (lo + (leVal numBytes : ℤ)) lo (hi - 1), rest)

/-! ## RecordRandomBytes (simulation.actor.cpp lines 49–67)

The recording oracle delegates each draw to an inner oracle and appends
the byte encoding of the result. -/

/-- Bytes appended by `RecordRandomBytes::random01` when the inner draw
returned `x`: the 4 little-endian bytes of
`static_cast<uint32_t>(x * numeric_limits<uint32_t>::max())`, i.e. of
`⌊x * (2^32 - 1)⌋` for `0 ≤ x`. -/
def recordRandom01Bytes (x : ℚ) : List ℕ :=
  toLEBytes 4 (⌊x * (2 ^ 32 - 1)⌋).toNat

/-- Bytes appended by `RecordRandomBytes::randomInt(lo, hi)` when the
inner draw returned `r`: the `bytesRequired(hi - lo)` low-order
little-endian bytes of `r - lo`. -/
def recordRandomIntBytes (lo hi r : ℤ) : List ℕ :=
  toLEBytes (bytesRequired (hi - lo).toNat) (r - lo).toNat

/-! ## Record/replay round trips

An inner-oracle history is a list of calls together with the inner
oracle's results: `random01` calls carry the rational the inner oracle
returned, `randomInt` calls carry the bounds and the returned integer. -/

/-- One call to the `Random` interface together with the inner oracle's
result for it. -/
inductive CallRes where
  | r01 (x : ℚ)
  | rInt (lo hi r : ℤ)
  deriving DecidableEq

/-- The `Random` interface contract for an inner result:
`random01 ∈ [0,1)` and `lo ≤ randomInt(lo,hi) < hi` with `lo < hi`. -/
def CallResOK : CallRes → Prop
  | .r01 x => 0 ≤ x ∧ x < 1
  | .rInt lo hi r => lo < hi ∧ lo ≤ r ∧ r < hi

instance : DecidablePred CallResOK := fun c => by
  cases c with
  | r01 x => exact inferInstanceAs (Decidable (_ ∧ _))
  | rInt lo hi r => exact inferInstanceAs (Decidable (_ ∧ _ ∧ _))

/-- The byte string `RecordRandomBytes` accumulates over a history. -/
def recordedBytes (crs : List CallRes) : List ℕ :=
  crs.flatMap fun c =>
    match c with
    | .r01 x => recordRandom01Bytes x
    | .rInt lo hi r => recordRandomIntBytes lo hi r

/-- The draw results the inner oracle produced (what `RecordRandomBytes`
itself returns to its caller), as rationals. -/
def innerResults (crs : List CallRes) : List ℚ :=
  crs.map fun c =>
    match c with
    | .r01 x => x
    | .rInt _ _ r => (r : ℚ)

/-- Replaying the same sequence of call shapes against a byte string:
the results of the successive `ReplayRandomBytes` draws, with the
left-over bytes, or `EndSimulation` if the string runs out. -/
def replayResults : List CallRes → List ℕ → Except EndSimulation (List ℚ × List ℕ)
  | [], s => .ok ([], s)
  | .r01 _ :: cs, s =>
      match replayRandom01 s with
      | .error e => .error e
      | .ok (v, s') =>
          match replayResults cs s' with
          | .error e => .error e
          | .ok (vs, rest) => .ok (v :: vs, rest)
  | .rInt lo hi _ :: cs, s =>
      match replayRandomInt lo hi s with
      | .error e => .error e
      | .ok (v, s') =>
          match replayResults cs s' with
          | .error e => .error e
          | .ok (vs, rest) => .ok ((v : ℚ) :: vs, rest)

/-- What replaying a recorded `random01` draw actually yields: the draw
quantised to a multiple of `1 / (2^32 - 1)`. -/
def quantise01 (x : ℚ) : ℚ := ((⌊x * (2 ^ 32 - 1)⌋ : ℤ) : ℚ) / (2 ^ 32 - 1)

/-- The value replay reproduces for each recorded call: `randomInt`
draws exactly, `random01` draws quantised. -/
def replayedValue : CallRes → ℚ
  | .r01 x => quantise01 x
  | .rInt _ _ r => (r : ℚ)

theorem consumeBytes_append (pre rest : List ℕ) :
    consumeBytes (pre ++ rest) pre.length = .ok (pre, rest) := by
  unfold consumeBytes
  rw [if_pos (by simp)]
  simp

theorem replayRandom01_record (x : ℚ) (hx0 : 0 ≤ x) (hx1 : x < 1)
    (rest : List ℕ) :
    replayRandom01 (recordRandom01Bytes x ++ rest) = .ok (quantise01 x, rest) := by
  have hlen : (recordRandom01Bytes x).length = 4 := toLEBytes_length _ _
  have hlt : (⌊x * (2 ^ 32 - 1)⌋).toNat < 256 ^ 4 := by
    have hfl : (⌊x * (2 ^ 32 - 1)⌋ : ℚ) ≤ x * (2 ^ 32 - 1) := Int.floor_le _
    have hmul : x * (2 ^ 32 - 1) < 1 * (2 ^ 32 - 1) := by
      apply mul_lt_mul_of_pos_right hx1
      norm_num
    have : (⌊x * (2 ^ 32 - 1)⌋ : ℚ) < 2 ^ 32 - 1 := by linarith
    have hz : ⌊x * (2 ^ 32 - 1)⌋ < 2 ^ 32 - 1 := by exact_mod_cast this
    omega
  have hle : leVal (recordRandom01Bytes x) = (⌊x * (2 ^ 32 - 1)⌋).toNat :=
    leVal_toLEBytes 4 _ hlt
  have hnn : 0 ≤ ⌊x * (2 ^ 32 - 1)⌋ := by
    apply Int.floor_nonneg.2
    positivity
  unfold replayRandom01
  rw [← hlen, consumeBytes_append]
  simp only [hle, quantise01]
  congr 2
  have hcast : ((⌊x * (2 ^ 32 - 1)⌋.toNat : ℕ) : ℚ) = ((⌊x * (2 ^ 32 - 1)⌋ : ℤ) : ℚ) := by
    exact_mod_cast Int.toNat_of_nonneg hnn
  rw [hcast]

theorem replayRandomInt_record (lo hi r : ℤ) (hlh : lo < hi)
    (hlor : lo ≤ r) (hrhi : r < hi) (rest : List ℕ) :
    replayRandomInt lo hi (recordRandomIntBytes lo hi r ++ rest) =
      .ok (r, rest) := by
  have hlen : (recordRandomIntBytes lo hi r).length =
      bytesRequired (hi - lo).toNat := toLEBytes_length _ _
  have hnum : (r - lo).toNat < 256 ^ bytesRequired (hi - lo).toNat := by
    have h1 : (r - lo).toNat < (hi - lo).toNat := by omega
    have h2 := lt_pow_bytesRequired (hi - lo).toNat
    omega
  have hle : leVal (recordRandomIntBytes lo hi r) = (r - lo).toNat :=
    leVal_toLEBytes _ _ hnum
  unfold replayRandomInt
  rw [← hlen, consumeBytes_append]
  simp only [hle]
  congr 2
  have : lo + ((r - lo).toNat : ℤ) = r := by omega
  rw [this]
  unfold clampZ
  omega

/-- Replaying the recorded byte string of a contract-respecting history
reproduces the `randomInt` draws exactly and the `random01` draws
quantised, consuming the whole string. -/
theorem replayResults_recordedBytes (crs : List CallRes)
    (hok : ∀ c ∈ crs, CallResOK c) :
    replayResults crs (recordedBytes crs) =
      .ok (crs.map replayedValue, []) := by
  suffices h : ∀ rest : List ℕ,
      replayResults crs (recordedBytes crs ++ rest) =
        .ok (crs.map replayedValue, rest) by
    have := h []
    simpa using this
  induction crs with
  | nil => intro rest; simp [replayResults, recordedBytes]
  | cons c cs ih =>
    intro rest
    have hc : CallResOK c := hok c (List.mem_cons_self c cs)
    have hcs : ∀ x ∈ cs, CallResOK x := fun x hx => hok x (List.mem_cons_of_mem c hx)
    cases c with
    | r01 x =>
      obtain ⟨hx0, hx1⟩ := hc
      have hbytes : recordedBytes (CallRes.r01 x :: cs) =
          recordRandom01Bytes x ++ recordedBytes cs := by
        simp [recordedBytes]
      rw [hbytes, List.append_assoc]
      simp only [replayResults]
      rw [replayRandom01_record x hx0 hx1]
      simp only []
      rw [ih hcs rest]
      simp [replayedValue]
    | rInt lo hi r =>
      obtain ⟨hlh, hlor, hrhi⟩ := hc
      have hbytes : recordedBytes (CallRes.rInt lo hi r :: cs) =
          recordRandomIntBytes lo hi r ++ recordedBytes cs := by
        simp [recordedBytes]
      rw [hbytes, List.append_assoc]
      simp only [replayResults]
      rw [replayRandomInt_record lo hi r hlh hlor hrhi]
      simp only []
      rw [ih hcs rest]
      simp [replayedValue]

/-! ## Tasks and the InOrder binary heap (simulation.actor.cpp lines 113–176)

`RandomSim::Task` carries a `Promise<Void>` waker, a deadline `t` and a
sequence number `stable`. The waker does not influence scheduling, so a
task is modelled by its `(t, stable)` pair; `stable` identifies the
waker uniquely. `tasks_` is a `std::vector` kept as a min-heap via
`std::push_heap`/`std::pop_heap` with `std::greater<Task>` under
InOrder, and as a plain vector under RandomOrder. -/

/-- A scheduled entry: deadline `t` (double, modelled as ℚ) and the
tie-breaking sequence number `stable`. -/
structure Task where
  t : ℚ
  stable : ℕ
  deriving DecidableEq, Inhabited

/-- `operator>(Task, Task)`:
`make_pair(lhs.t, lhs.stable) > make_pair(rhs.t, rhs.stable)`,
lexicographic on pairs. -/
def Task.gt (l r : Task) : Prop :=
  r.t < l.t ∨ (r.t = l.t ∧ r.stable < l.stable)

instance (l r : Task) : Decidable (Task.gt l r) :=
  inferInstanceAs (Decidable (_ ∨ _))

/-- Lexicographic `≤` on `(t, stable)` pairs, the complement of
`Task.gt` in the other order. -/
def Task.le (l r : Task) : Prop :=
  l.t < r.t ∨ (l.t = r.t ∧ l.stable ≤ r.stable)

instance (l r : Task) : Decidable (Task.le l r) :=
  inferInstanceAs (Decidable (_ ∨ _))

theorem Task.not_gt_iff_le (l r : Task) : ¬ Task.gt l r ↔ Task.le l r := by
  unfold Task.gt Task.le
  constructor
  · intro hng
    push_neg at hng
    obtain ⟨h1, h2⟩ := hng
    rcases eq_or_lt_of_le h1 with he | hlt
    · exact Or.inr ⟨he, h2 he.symm⟩
    · exact Or.inl hlt
  · intro hle hgt
    rcases hle with h | ⟨he, hs⟩ <;> rcases hgt with h' | ⟨he', hs'⟩
    · exact absurd h (asymm h')
    · exact absurd (he' ▸ h) (lt_irrefl _)
    · exact absurd (he ▸ h') (lt_irrefl _)
    · omega

theorem Task.le_refl (l : Task) : Task.le l l := Or.inr ⟨rfl, Nat.le_refl _⟩

theorem Task.le_trans {a b c : Task} (hab : Task.le a b) (hbc : Task.le b c) :
    Task.le a c := by
  unfold Task.le at *
  rcases hab with h | ⟨he, hs⟩ <;> rcases hbc with h' | ⟨he', hs'⟩
  · exact Or.inl (lt_trans h h')
  · exact Or.inl (he' ▸ h)
  · exact Or.inl (he ▸ h')
  · exact Or.inr ⟨he.trans he', Nat.le_trans hs hs'⟩

/-- Sift a freshly appended element up, as `std::push_heap` does with
comparator `std::greater<Task>`: swap with the parent while the parent
compares greater. -/
def siftUp (a : Array Task) (i : ℕ) : Array Task :=
  if h : i = 0 ∨ a.size ≤ i then a
  else
    let p := (i - 1) / 2
    if Task.gt a[p]! a[i]! then siftUp (a.swap! p i) p else a
  termination_by i
  decreasing_by
    push_neg at h
    omega

/-- `std::push_heap(tasks_.begin(), tasks_.end(), std::greater<Task>{})`
after a `push_back`. -/
def heapPush (a : Array Task) (x : Task) : Array Task :=
  siftUp (a.push x) a.size

/-- Restore the heap below index `i`, as `std::pop_heap` does after
moving the last element to the front: swap with the smaller child while
the node compares greater. -/
def siftDown (a : Array Task) (i : ℕ) : Array Task :=
  let l := 2 * i + 1
  let r := 2 * i + 2
  if _hl : l < a.size then
    let c := if r < a.size ∧ Task.gt a[l]! a[r]! then r else l
    if Task.gt a[i]! a[c]! then siftDown (a.swap! i c) c else a
  else a
  termination_by a.size - i
  decreasing_by
    simp only [Array.size_swap!]
    split <;> omega

/-- The InOrder pop in `RandomSim::run`: read the front (minimum),
`std::pop_heap` (front moves to the back, heap restored on the rest),
`pop_back`. Returns the popped task and the remaining heap; `none` on
an empty vector. -/
def heapPop (a : Array Task) : Option (Task × Array Task) :=
  if a.size = 0 then none
  else some (a[0]!, siftDown ((a.swap! 0 (a.size - 1)).pop) 0)

/-- The zero-based binary min-heap invariant maintained by
`std::push_heap`/`std::pop_heap` with `std::greater<Task>`: no parent
compares greater than its child. -/
def IsMinHeap (a : Array Task) : Prop :=
  ∀ i : Fin a.size, 0 < (i : ℕ) → ¬ Task.gt (a[((i : ℕ) - 1) / 2]!) (a[(i : ℕ)]!)

instance (a : Array Task) : Decidable (IsMinHeap a) :=
  inferInstanceAs (Decidable (∀ _, _))

/-- In a min-heap the root is a lexicographic lower bound on every
element. -/
theorem isMinHeap_root_le (a : Array Task) (ha : IsMinHeap a) :
    ∀ i, i < a.size → Task.le a[0]! a[i]! := by
  intro i
  induction i using Nat.strong_induction_on with
  | _ i ih =>
    intro hi
    rcases Nat.eq_zero_or_pos i with h0 | hpos
    · subst h0; exact Task.le_refl _
    · have hparent : (i - 1) / 2 < i := by omega
      have h1 : Task.le a[0]! a[(i - 1) / 2]! :=
        ih ((i - 1) / 2) hparent (lt_trans hparent hi)
      have h2 : Task.le a[(i - 1) / 2]! a[i]! :=
        (Task.not_gt_iff_le _ _).1 (ha ⟨i, hi⟩ hpos)
      exact Task.le_trans h1 h2

/-! ## The std heap operations maintain the invariant

These lemmas check that the modelled `push_heap`/`pop_heap` sifts
really maintain the min-heap property the C++ standard guarantees for
`tasks_`, so the invariant hypothesised about dispatch holds at every
iteration of `RandomSim::run` under InOrder. -/

theorem Task.gt_asymm {l r : Task} (h : Task.gt l r) : ¬ Task.gt r l := by
  unfold Task.gt at *
  rcases h with h | ⟨he, hs⟩
  · rintro (h' | ⟨he', _⟩)
    · exact absurd (lt_trans h h') (lt_irrefl _)
    · exact absurd (he' ▸ h) (lt_irrefl _)
  · rintro (h' | ⟨_, hs'⟩)
    · exact absurd (he ▸ h') (lt_irrefl _)
    · omega

theorem Task.le_of_gt {l r : Task} (h : Task.gt l r) : Task.le r l :=
  (Task.not_gt_iff_le r l).1 (Task.gt_asymm h)

theorem get!_swap! (a : Array Task) (i j k : ℕ) (hi : i < a.size)
    (hj : j < a.size) (hk : k < a.size) :
    (a.swap! i j)[k]! =
      if k = i then a[j]! else if k = j then a[i]! else a[k]! := by
  unfold Array.swap!
  rw [dif_pos hi, dif_pos hj]
  have hk' : k < (a.swap ⟨i, hi⟩ ⟨j, hj⟩).size := by
    rw [Array.size_swap]; exact hk
  rw [getElem!_pos (a.swap ⟨i, hi⟩ ⟨j, hj⟩) k hk', Array.getElem_swap]
  split_ifs
  · exact (getElem!_pos a j hj).symm
  · exact (getElem!_pos a i hi).symm
  · exact (getElem!_pos a k hk).symm

theorem get!_pop (a : Array Task) (k : ℕ) (hk : k < a.size - 1) :
    a.pop[k]! = a[k]! := by
  have h1 : k < a.pop.size := by rw [Array.size_pop]; exact hk
  rw [getElem!_pos a.pop k h1, getElem!_pos a k (by omega), Array.getElem_pop]

theorem get!_push_lt (a : Array Task) (x : Task) (k : ℕ) (hk : k < a.size) :
    (a.push x)[k]! = a[k]! := by
  have h1 : k < (a.push x).size := by rw [Array.size_push]; omega
  rw [getElem!_pos (a.push x) k h1, getElem!_pos a k hk,
    Array.getElem_push_lt]

/-- The min-heap invariant, phrased over plain bounded indices. -/
theorem isMinHeap_iff (a : Array Task) :
    IsMinHeap a ↔
      ∀ i, i < a.size → 0 < i → ¬ Task.gt a[(i - 1) / 2]! a[i]! := by
  constructor
  · intro h i hi h0
    exact h ⟨i, hi⟩ h0
  · intro h i h0
    exact h i i.isLt h0

/-- Intermediate state of the push sift: every parent/child edge holds
except possibly the one into `hole`, and `hole`'s parent already
dominates `hole`'s children. -/
def UpState (a : Array Task) (hole : ℕ) : Prop :=
  (∀ i, i < a.size → 0 < i → i ≠ hole → ¬ Task.gt a[(i - 1) / 2]! a[i]!) ∧
  (∀ i, i < a.size → 0 < i → (i - 1) / 2 = hole → 0 < hole →
    ¬ Task.gt a[(hole - 1) / 2]! a[i]!)

theorem siftUp_isMinHeap (a : Array Task) (hole : ℕ) (hhole : hole < a.size)
    (hst : UpState a hole) : IsMinHeap (siftUp a hole) := by
  induction hole using Nat.strong_induction_on generalizing a with
  | _ hole ih =>
    obtain ⟨hst1, hst2⟩ := hst
    unfold siftUp
    by_cases hguard : hole = 0 ∨ a.size ≤ hole
    · rw [dif_pos hguard]
      have h0 : hole = 0 := by omega
      rw [isMinHeap_iff]
      intro i hi hipos
      exact hst1 i hi hipos (by omega)
    · rw [dif_neg hguard]
      push_neg at hguard
      obtain ⟨hne0, _⟩ := hguard
      have hpos : 0 < hole := Nat.pos_of_ne_zero hne0
      have hplt : (hole - 1) / 2 < hole := by omega
      have hpsize : (hole - 1) / 2 < a.size := lt_trans hplt hhole
      by_cases hgt : Task.gt a[(hole - 1) / 2]! a[hole]!
      · rw [if_pos hgt]
        set p := (hole - 1) / 2 with hp
        have hbsize : (a.swap! p hole).size = a.size := Array.size_swap! a p hole
        have hget := fun k hk => get!_swap! a p hole k hpsize hhole hk
        refine ih p hplt (a.swap! p hole) (by omega) ⟨?_, ?_⟩
        · -- all edges except the one into p
          intro i hi hipos hip
          rw [hbsize] at hi
          have higet := hget i hi
          by_cases hihole : i = hole
          · -- the swapped-down element under its old parent
            rw [hihole]
            have hparg : (hole - 1) / 2 = p := hp.symm
            rw [hparg, hget p hpsize, if_pos rfl,
              hget hole hhole, if_neg (by omega), if_pos rfl]
            exact Task.gt_asymm hgt
          · by_cases hpar : (i - 1) / 2 = hole
            · -- children of the hole now sit under the moved-up parent
              have hinep : i ≠ p := hip
              rw [hpar, hget hole hhole, if_neg (by omega), if_pos rfl,
                higet, if_neg hinep, if_neg hihole]
              exact hst2 i hi hipos hpar hpos
            · by_cases hparp : (i - 1) / 2 = p
              · -- other children of p now sit under the swapped-down element
                have h1 : ¬ Task.gt a[p]! a[i]! := by
                  rw [← hparp]
                  exact hst1 i hi hipos hihole
                rw [hparp, hget p hpsize, if_pos rfl,
                  higet, if_neg hip, if_neg hihole]
                rw [Task.not_gt_iff_le] at h1 ⊢
                exact Task.le_trans (Task.le_of_gt hgt) h1
              · -- untouched edges
                rw [hget ((i - 1) / 2) (by omega), if_neg hparp, if_neg hpar,
                  higet, if_neg hip, if_neg hihole]
                exact hst1 i hi hipos hihole
        · -- p's parent already dominates p's children
          intro i hi hipos hpar hppos
          rw [hbsize] at hi
          have hgp : (p - 1) / 2 < p := by omega
          have hgpsize : (p - 1) / 2 < a.size := by omega
          rw [hget ((p - 1) / 2) hgpsize, if_neg (by omega), if_neg (by omega)]
          have hgdom : ¬ Task.gt a[(p - 1) / 2]! a[p]! :=
            hst1 p hpsize hppos (by omega)
          by_cases hihole : i = hole
          · rw [hihole, hget hole hhole, if_neg (by omega), if_pos rfl]
            exact hgdom
          · have hinep : i ≠ p := by omega
            rw [hget i hi, if_neg hinep, if_neg hihole]
            have hpdom : ¬ Task.gt a[p]! a[i]! := by
              rw [← hpar]
              exact hst1 i hi hipos hihole
            rw [Task.not_gt_iff_le] at hgdom hpdom ⊢
            exact Task.le_trans hgdom hpdom
      · rw [if_neg hgt]
        rw [isMinHeap_iff]
        intro i hi hipos
        by_cases hihole : i = hole
        · subst hihole
          exact hgt
        · exact hst1 i hi hipos hihole

/-- `std::push_heap` after `push_back` keeps `tasks_` a min-heap. -/
theorem heapPush_isMinHeap (a : Array Task) (x : Task) (ha : IsMinHeap a) :
    IsMinHeap (heapPush a x) := by
  unfold heapPush
  have hsize : (a.push x).size = a.size + 1 := Array.size_push a x
  refine siftUp_isMinHeap (a.push x) a.size (by omega) ⟨?_, ?_⟩
  · intro i hi hipos hine
    rw [hsize] at hi
    have hilt : i < a.size := by omega
    rw [get!_push_lt a x i hilt, get!_push_lt a x ((i - 1) / 2) (by omega)]
    exact (isMinHeap_iff a).1 ha i hilt hipos
  · intro i hi hipos hpar _
    rw [hsize] at hi
    omega

/-- Intermediate state of the pop sift: every parent/child edge holds
except possibly those out of `hole`, and `hole`'s parent already
dominates `hole`'s children. -/
def DownState (a : Array Task) (hole : ℕ) : Prop :=
  (∀ i, i < a.size → 0 < i → (i - 1) / 2 ≠ hole →
    ¬ Task.gt a[(i - 1) / 2]! a[i]!) ∧
  (0 < hole → ∀ i, i < a.size → (i - 1) / 2 = hole →
    ¬ Task.gt a[(hole - 1) / 2]! a[i]!)

theorem siftDown_isMinHeap (n : ℕ) :
    ∀ (a : Array Task) (hole : ℕ), a.size - hole ≤ n →
      DownState a hole → IsMinHeap (siftDown a hole) := by
  induction n with
  | zero =>
    intro a hole hn hst
    have hsz : a.size ≤ hole := by omega
    unfold siftDown
    rw [dif_neg (by omega)]
    rw [isMinHeap_iff]
    intro i hi hipos
    exact hst.1 i hi hipos (by omega)
  | succ n ih =>
    intro a hole hn hst
    obtain ⟨hst1, hst2⟩ := hst
    unfold siftDown
    by_cases hl : 2 * hole + 1 < a.size
    · rw [dif_pos hl]
      simp only []
      set c := if 2 * hole + 2 < a.size ∧ Task.gt a[2 * hole + 1]! a[2 * hole + 2]!
        then 2 * hole + 2 else 2 * hole + 1 with hc
      have hcsize : c < a.size := by
        rw [hc]; split <;> omega
      have hcgt : hole < c := by
        rw [hc]; split <;> omega
      have hcpar : (c - 1) / 2 = hole := by
        rw [hc]; split <;> omega
      have hcmin : ∀ i, i < a.size → (i - 1) / 2 = hole → 0 < i →
          Task.le a[c]! a[i]! := by
        intro i hi hpar hipos
        have hichild : i = 2 * hole + 1 ∨ i = 2 * hole + 2 := by omega
        rw [hc]
        by_cases hcr : 2 * hole + 2 < a.size ∧
            Task.gt a[2 * hole + 1]! a[2 * hole + 2]!
        · rw [if_pos hcr]
          rcases hichild with h | h
          · rw [h]; exact Task.le_of_gt hcr.2
          · rw [h]; exact Task.le_refl _
        · rw [if_neg hcr]
          rcases hichild with h | h
          · rw [h]; exact Task.le_refl _
          · rw [h]
            rw [h] at hi
            have : ¬ Task.gt a[2 * hole + 1]! a[2 * hole + 2]! := by
              intro hgt
              exact hcr ⟨hi, hgt⟩
            exact (Task.not_gt_iff_le _ _).1 this
      by_cases hgt : Task.gt a[hole]! a[c]!
      · rw [if_pos hgt]
        have hbsize : (a.swap! hole c).size = a.size := Array.size_swap! _ _ _
        have hget := fun k hk => get!_swap! a hole c k (by omega) hcsize hk
        refine ih (a.swap! hole c) c (by omega) ⟨?_, ?_⟩
        · intro i hi hipos hip
          rw [hbsize] at hi
          by_cases hic : i = c
          · rw [hic, hcpar, hget hole (by omega), if_pos rfl,
              hget c hcsize, if_neg (by omega), if_pos rfl]
            exact Task.gt_asymm hgt
          · by_cases hihole : i = hole
            · have hhpos : 0 < hole := by omega
              have hp2 : (hole - 1) / 2 ≠ hole := by omega
              have hp3 : (hole - 1) / 2 ≠ c := by omega
              rw [hihole, hget ((hole - 1) / 2) (by omega), if_neg hp2,
                if_neg hp3, hget hole (by omega), if_pos rfl]
              have hhp : 0 < hole := by omega
              exact hst2 hhp c hcsize hcpar
            · by_cases hpar : (i - 1) / 2 = hole
              · rw [hpar, hget hole (by omega), if_pos rfl,
                  hget i hi, if_neg hihole, if_neg hic]
                rw [Task.not_gt_iff_le]
                exact hcmin i hi hpar hipos
              · rw [hget ((i - 1) / 2) (by omega), if_neg hpar, if_neg hip,
                  hget i hi, if_neg hihole, if_neg hic]
                exact hst1 i hi hipos hpar
        · intro hcpos i hi hpar
          rw [hbsize] at hi
          have hine : i ≠ hole := by omega
          have hinec : i ≠ c := by omega
          rw [hcpar, hget hole (by omega), if_pos rfl,
            hget i hi, if_neg hine, if_neg hinec]
          have := hst1 i hi (by omega) (by omega)
          rw [hpar] at this
          exact this
      · rw [if_neg hgt]
        rw [isMinHeap_iff]
        intro i hi hipos
        by_cases hpar : (i - 1) / 2 = hole
        · rw [hpar]
          rw [Task.not_gt_iff_le] at hgt ⊢
          exact Task.le_trans hgt (hcmin i hi hpar hipos)
        · exact hst1 i hi hipos hpar
    · rw [dif_neg hl]
      rw [isMinHeap_iff]
      intro i hi hipos
      exact hst1 i hi hipos (by omega)

/-- `std::pop_heap`/`pop_back` keep the remaining `tasks_` a min-heap. -/
theorem heapPop_isMinHeap (a : Array Task) (t : Task) (rest : Array Task)
    (ha : IsMinHeap a) (h : heapPop a = some (t, rest)) : IsMinHeap rest := by
  unfold heapPop at h
  by_cases hne : a.size = 0
  · rw [if_pos hne] at h
    exact absurd h (by simp)
  · rw [if_neg hne] at h
    simp only [Option.some.injEq, Prod.mk.injEq] at h
    obtain ⟨_, hrest⟩ := h
    have hssize : (a.swap! 0 (a.size - 1)).size = a.size := Array.size_swap! _ _ _
    have hbsize : ((a.swap! 0 (a.size - 1)).pop).size = a.size - 1 := by
      rw [Array.size_pop, hssize]
    rw [← hrest]
    refine siftDown_isMinHeap ((a.swap! 0 (a.size - 1)).pop).size _ 0
      (by omega) ⟨?_, ?_⟩
    · intro i hi hipos hpar
      rw [hbsize] at hi
      have hswget := fun k (hk : k < a.size) =>
        get!_swap! a 0 (a.size - 1) k (by omega) (by omega) hk
      have hpop := fun k (hk : k < a.size - 1) =>
        get!_pop (a.swap! 0 (a.size - 1)) k (by rw [hssize]; exact hk)
      have hplt : (i - 1) / 2 < a.size - 1 := by omega
      rw [hpop i hi, hpop ((i - 1) / 2) hplt,
        hswget i (by omega), if_neg (by omega), if_neg (by omega),
        hswget ((i - 1) / 2) (by omega), if_neg (by omega), if_neg (by omega)]
      exact (isMinHeap_iff a).1 ha i (by omega) hipos
    · intro h0
      exact absurd h0 (lt_irrefl 0)

end Simulation

namespace Simulation

/-! ## RandomSim scheduler state (simulation.actor.cpp lines 108–176) -/

/-- `enum class SchedulingStrategy`. -/
inductive SchedulingStrategy where
  | inOrder
  | randomOrder
  deriving DecidableEq

/-- The mutable state of a `RandomSim`: the virtual clock `now_`, the
task vector `tasks_`, the sequence counter `stable`, the `running`
flag, the constant `max_buggified_delay` and the scheduling strategy. -/
structure RandomSimState where
  now : ℚ
  tasks : Array Task
  stable : ℕ
  running : Bool
  maxBuggifiedDelay : ℚ
  strategy : SchedulingStrategy

/-- The `RandomSim` constructor: `now_ = 0`, empty task vector,
`stable = 0`, running, and
`max_buggified_delay = strategy == InOrder ? 0.2 * rand->random01() : 0`
where `ctorDraw` is the `random01()` value drawn (only consulted under
InOrder; the ternary short-circuits otherwise). -/
def RandomSimState.init (strategy : SchedulingStrategy) (ctorDraw : ℚ) :
    RandomSimState :=
  { now := 0
    tasks := #[]
    stable := 0
    running := true
    maxBuggifiedDelay := if strategy = .inOrder then 0.2 * ctorDraw else 0
    strategy := strategy }

/-- The seconds actually scheduled by `RandomSim::delay`: when
`max_buggified_delay > 0 && random01() < 0.25` (coin draw `c`), add
`max_buggified_delay * pow(random01(), 1000.0)` (jitter draw `j`). -/
def delaySeconds (m c j seconds : ℚ) : ℚ :=
  if 0 < m ∧ c < 0.25 then seconds + m * j ^ 1000 else seconds

/-- The perturbation `delay` adds on top of the requested seconds. -/
def delayPerturbation (m c j : ℚ) : ℚ := delaySeconds m c j 0

/-- The enqueue part of `RandomSim::delay`: push
`{ task, now_ + seconds, stable++ }`, with a `std::push_heap` under
InOrder and a plain `push_back` under RandomOrder. -/
def delayEnqueue (s : RandomSimState) (seconds : ℚ) : RandomSimState :=
  let task : Task := ⟨s.now + seconds, s.stable⟩
  { s with
    tasks :=
      match s.strategy with
      | .inOrder => heapPush s.tasks task
      | .randomOrder => s.tasks.push task
    stable := s.stable + 1 }

/-- One iteration of the `RandomSim::run` dispatch loop: while
`running && !tasks_.empty()`, pop a task (heap-front under InOrder; the
element at the drawn index, swapped with the back, under RandomOrder —
`choice` is the oracle's `randomInt(0, tasks_.size())` draw), then set
`now_ = max(task.t, now_)`. Returns the dispatched task and the new
state, `none` when the loop guard fails. The oracle contract puts the
draw in `[0, tasks_.size())`, where `choice % size = choice`; the
modulo only totalises the function outside that contract. -/
def runStep (s : RandomSimState) (choice : ℕ) : Option (Task × RandomSimState) :=
  if s.running = true ∧ s.tasks.size ≠ 0 then
    match s.strategy with
    | .inOrder =>
        match heapPop s.tasks with
        | none => none
        | some (task, rest) =>
            some (task, { s with now := max task.t s.now, tasks := rest })
    | .randomOrder =>
        let a := s.tasks.swap! (choice % s.tasks.size) (s.tasks.size - 1)
        let task := a[a.size - 1]!
        some (task, { s with now := max task.t s.now, tasks := a.pop })
  else none

/-- The `now_` values observed across successive iterations of
`RandomSim::run`. Each trace entry supplies the oracle draw for a
RandomOrder dispatch and the `delay` seconds the resumed continuation
enqueues before suspending again (enqueues never touch `now_`). -/
def runTrace (s : RandomSimState) : List (ℕ × List ℚ) → List ℚ
  | [] => []
  | (choice, delays) :: rest =>
      match runStep s choice with
      | none => []
      | some (_, s') =>
          let s'' := delays.foldl delayEnqueue s'
          s''.now :: runTrace s'' rest

theorem delayEnqueue_now (s : RandomSimState) (seconds : ℚ) :
    (delayEnqueue s seconds).now = s.now := rfl

theorem foldl_delayEnqueue_now (delays : List ℚ) (s : RandomSimState) :
    (delays.foldl delayEnqueue s).now = s.now := by
  induction delays generalizing s with
  | nil => rfl
  | cons d ds ih => rw [List.foldl_cons, ih, delayEnqueue_now]

/-- A dispatch never moves the clock backwards:
`now_ = std::max(task.t, now_)`. -/
theorem runStep_now_mono (s : RandomSimState) (choice : ℕ)
    (task : Task) (s' : RandomSimState)
    (h : runStep s choice = some (task, s')) : s.now ≤ s'.now := by
  unfold runStep at h
  split at h
  · split at h
    · cases hpop : heapPop s.tasks with
      | none => rw [hpop] at h; exact absurd h (by simp)
      | some v =>
          rw [hpop] at h
          obtain ⟨task', rest⟩ := v
          simp only [Option.some.injEq, Prod.mk.injEq] at h
          obtain ⟨_, h2⟩ := h
          rw [← h2]
          exact le_max_right _ _
    · simp only [Option.some.injEq, Prod.mk.injEq] at h
      obtain ⟨_, h2⟩ := h
      rw [← h2]
      exact le_max_right _ _
  · exact absurd h (by simp)

/-- `RandomSim::delay` keeps `tasks_` a min-heap under InOrder. -/
theorem delayEnqueue_isMinHeap (s : RandomSimState) (seconds : ℚ)
    (hstrat : s.strategy = .inOrder) (h : IsMinHeap s.tasks) :
    IsMinHeap (delayEnqueue s seconds).tasks := by
  unfold delayEnqueue
  simp only [hstrat]
  exact heapPush_isMinHeap _ _ h

/-- One InOrder iteration of `RandomSim::run` keeps `tasks_` a
min-heap, so the dispatch-minimality hypothesis holds at every
iteration. -/
theorem runStep_isMinHeap (s : RandomSimState) (choice : ℕ) (task : Task)
    (s' : RandomSimState) (hstrat : s.strategy = .inOrder)
    (h : IsMinHeap s.tasks) (hrun : runStep s choice = some (task, s')) :
    IsMinHeap s'.tasks := by
  unfold runStep at hrun
  rw [hstrat] at hrun
  split at hrun
  · cases hpop : heapPop s.tasks with
    | none =>
        rw [hpop] at hrun
        exact absurd hrun (by simp)
    | some v =>
        obtain ⟨t, rest⟩ := v
        rw [hpop] at hrun
        simp only [Option.some.injEq, Prod.mk.injEq] at hrun
        obtain ⟨_, hs'⟩ := hrun
        rw [← hs']
        exact heapPop_isMinHeap s.tasks t rest h hpop
  · exact absurd hrun (by simp)

/-! ## Fuzz driver (simulation.actor.cpp lines 257–277)

`LLVMFuzzerTestOneInput` wraps the input buffer in a
`ReplayRandomBytes`, and `runSimulation` builds a
`RandomSim{random, SchedulingStrategy::RandomOrder}`, spawns the
workload and calls `sim.run()` inside `try { … } catch (EndSimulation&)`,
so the entry point always returns 0 unless the workload aborts.

The dispatch loop is modelled exactly; the workload continuation that a
dispatch resumes (clients, swaps, invariant checks — all single-threaded
deterministic code) is abstracted as a function `w` from the dispatched
task and the post-dispatch state to the next state, or to `EndSimulation`
when the continuation's own oracle draws exhaust the buffer. -/

/-- Joint state of the replay oracle and the scheduler during a fuzz
run. -/
structure FuzzState where
  sim : RandomSimState
  buf : List ℕ

/-- How a fuzz run ends: the dispatch loop's guard fails (stop or
quiescence), or the byte buffer is exhausted (`EndSimulation`). -/
inductive FuzzOutcome where
  | quiescent
  | endOfInput
  deriving DecidableEq

/-- One iteration of `sim.run()` in replay mode: check the loop guard,
draw `randomInt(0, tasks_.size())` from the replay oracle, dispatch the
chosen task, then let the resumed continuation `w` run to its next
suspension point. The label records the dispatched task, if any. -/
inductive FuzzStep (w : FuzzState → Task → Except EndSimulation FuzzState) :
    FuzzState → Option Task → FuzzState ⊕ FuzzOutcome → Prop where
  | halt (s : FuzzState)
      (hguard : ¬(s.sim.running = true ∧ s.sim.tasks.size ≠ 0)) :
      FuzzStep w s none (.inr .quiescent)
  | oracleEnd (s : FuzzState) (e : EndSimulation)
      (hguard : s.sim.running = true ∧ s.sim.tasks.size ≠ 0)
      (hdraw : replayRandomInt 0 (s.sim.tasks.size : ℤ) s.buf = .error e) :
      FuzzStep w s none (.inr .endOfInput)
  | contEnd (s : FuzzState) (i : ℤ) (rest : List ℕ) (task : Task)
      (sim' : RandomSimState) (e : EndSimulation)
      (hguard : s.sim.running = true ∧ s.sim.tasks.size ≠ 0)
      (hdraw : replayRandomInt 0 (s.sim.tasks.size : ℤ) s.buf = .ok (i, rest))
      (hstep : runStep s.sim i.toNat = some (task, sim'))
      (hw : w ⟨sim', rest⟩ task = .error e) :
      FuzzStep w s (some task) (.inr .endOfInput)
  | dispatch (s : FuzzState) (i : ℤ) (rest : List ℕ) (task : Task)
      (sim' : RandomSimState) (s' : FuzzState)
      (hguard : s.sim.running = true ∧ s.sim.tasks.size ≠ 0)
      (hdraw : replayRandomInt 0 (s.sim.tasks.size : ℤ) s.buf = .ok (i, rest))
      (hstep : runStep s.sim i.toNat = some (task, sim'))
      (hw : w ⟨sim', rest⟩ task = .ok s') :
      FuzzStep w s (some task) (.inl s')

/-- A complete fuzz run: iterate `FuzzStep` until an outcome, recording
the sequence of dispatched tasks. -/
inductive FuzzRun (w : FuzzState → Task → Except EndSimulation FuzzState) :
    FuzzState → List Task → FuzzOutcome → Prop where
  | done (s : FuzzState) (o : FuzzOutcome)
      (h : FuzzStep w s none (.inr o)) : FuzzRun w s [] o
  | doneAt (s : FuzzState) (task : Task) (o : FuzzOutcome)
      (h : FuzzStep w s (some task) (.inr o)) : FuzzRun w s [task] o
  | cons (s : FuzzState) (task : Task) (s' : FuzzState) (tr : List Task)
      (o : FuzzOutcome)
      (h : FuzzStep w s (some task) (.inl s'))
      (hrest : FuzzRun w s' tr o) : FuzzRun w s (task :: tr) o

/-- A single replay-driven iteration is deterministic: the guard check,
the oracle draw, the dispatch computation and the continuation are all
functions of the state. -/
theorem fuzzStep_deterministic
    (w : FuzzState → Task → Except EndSimulation FuzzState)
    (s : FuzzState) (t₁ t₂ : Option Task) (o₁ o₂ : FuzzState ⊕ FuzzOutcome)
    (h₁ : FuzzStep w s t₁ o₁) (h₂ : FuzzStep w s t₂ o₂) :
    t₁ = t₂ ∧ o₁ = o₂ := by
  cases h₁ with
  | halt hguard =>
    cases h₂ with
    | halt => exact ⟨rfl, rfl⟩
    | oracleEnd _ hguard' _ => exact absurd hguard' hguard
    | contEnd _ _ _ _ _ hguard' _ _ _ => exact absurd hguard' hguard
    | dispatch _ _ _ _ _ hguard' _ _ _ => exact absurd hguard' hguard
  | oracleEnd e hguard hdraw =>
    cases h₂ with
    | halt hguard' => exact absurd hguard hguard'
    | oracleEnd => exact ⟨rfl, rfl⟩
    | contEnd _ _ _ _ _ _ hdraw' _ _ =>
        rw [hdraw] at hdraw'; exact absurd hdraw' (by simp)
    | dispatch _ _ _ _ _ _ hdraw' _ _ =>
        rw [hdraw] at hdraw'; exact absurd hdraw' (by simp)
  | contEnd i rest task sim' e hguard hdraw hstep hw =>
    cases h₂ with
    | halt hguard' => exact absurd hguard hguard'
    | oracleEnd _ _ hdraw' =>
        rw [hdraw] at hdraw'; exact absurd hdraw' (by simp)
    | contEnd i' rest' task' sim'' e' _ hdraw' hstep' hw' =>
        rw [hdraw] at hdraw'
        simp only [Except.ok.injEq, Prod.mk.injEq] at hdraw'
        obtain ⟨hi, hrest⟩ := hdraw'
        subst hi; subst hrest
        rw [hstep] at hstep'
        simp only [Option.some.injEq, Prod.mk.injEq] at hstep'
        obtain ⟨ht, hs⟩ := hstep'
        subst ht; subst hs
        exact ⟨rfl, rfl⟩
    | dispatch i' rest' task' sim'' s'' _ hdraw' hstep' hw' =>
        rw [hdraw] at hdraw'
        simp only [Except.ok.injEq, Prod.mk.injEq] at hdraw'
        obtain ⟨hi, hrest⟩ := hdraw'
        subst hi; subst hrest
        rw [hstep] at hstep'
        simp only [Option.some.injEq, Prod.mk.injEq] at hstep'
        obtain ⟨ht, hs⟩ := hstep'
        subst ht; subst hs
        rw [hw] at hw'
        exact absurd hw' (by simp)
  | dispatch i rest task sim' s' hguard hdraw hstep hw =>
    cases h₂ with
    | halt hguard' => exact absurd hguard hguard'
    | oracleEnd _ _ hdraw' =>
        rw [hdraw] at hdraw'; exact absurd hdraw' (by simp)
    | contEnd i' rest' task' sim'' e' _ hdraw' hstep' hw' =>
        rw [hdraw] at hdraw'
        simp only [Except.ok.injEq, Prod.mk.injEq] at hdraw'
        obtain ⟨hi, hrest⟩ := hdraw'
        subst hi; subst hrest
        rw [hstep] at hstep'
        simp only [Option.some.injEq, Prod.mk.injEq] at hstep'
        obtain ⟨ht, hs⟩ := hstep'
        subst ht; subst hs
        rw [hw] at hw'
        exact absurd hw' (by simp)
    | dispatch i' rest' task' sim'' s'' _ hdraw' hstep' hw' =>
        rw [hdraw] at hdraw'
        simp only [Except.ok.injEq, Prod.mk.injEq] at hdraw'
        obtain ⟨hi, hrest⟩ := hdraw'
        subst hi; subst hrest
        rw [hstep] at hstep'
        simp only [Option.some.injEq, Prod.mk.injEq] at hstep'
        obtain ⟨ht, hs⟩ := hstep'
        subst ht; subst hs
        rw [hw] at hw'
        simp only [Except.ok.injEq] at hw'
        subst hw'
        exact ⟨rfl, rfl⟩

/-- Complete fuzz runs from the same state coincide: same dispatch
trace, same outcome. -/
theorem fuzzRun_deterministic
    (w : FuzzState → Task → Except EndSimulation FuzzState)
    (s : FuzzState) (tr₁ tr₂ : List Task) (o₁ o₂ : FuzzOutcome)
    (h₁ : FuzzRun w s tr₁ o₁) (h₂ : FuzzRun w s tr₂ o₂) :
    tr₁ = tr₂ ∧ o₁ = o₂ := by
  induction h₁ generalizing tr₂ with
  | done s o h =>
    cases h₂ with
    | done _ o' h' =>
        obtain ⟨_, ho⟩ := fuzzStep_deterministic w s _ _ _ _ h h'
        simp only [Sum.inr.injEq] at ho
        exact ⟨rfl, ho⟩
    | doneAt _ task' o' h' =>
        obtain ⟨ht, _⟩ := fuzzStep_deterministic w s _ _ _ _ h h'
        exact absurd ht (by simp)
    | cons _ task' s'' tr' o' h' _ =>
        obtain ⟨ht, _⟩ := fuzzStep_deterministic w s _ _ _ _ h h'
        exact absurd ht (by simp)
  | doneAt s task o h =>
    cases h₂ with
    | done _ o' h' =>
        obtain ⟨ht, _⟩ := fuzzStep_deterministic w s _ _ _ _ h h'
        exact absurd ht (by simp)
    | doneAt _ task' o' h' =>
        obtain ⟨ht, ho⟩ := fuzzStep_deterministic w s _ _ _ _ h h'
        simp only [Option.some.injEq] at ht
        simp only [Sum.inr.injEq] at ho
        exact ⟨by rw [ht], ho⟩
    | cons _ task' s'' tr' o' h' _ =>
        obtain ⟨_, ho⟩ := fuzzStep_deterministic w s _ _ _ _ h h'
        exact absurd ho (by simp)
  | cons s task s' tr o h hrest ih =>
    cases h₂ with
    | done _ o' h' =>
        obtain ⟨ht, _⟩ := fuzzStep_deterministic w s _ _ _ _ h h'
        exact absurd ht (by simp)
    | doneAt _ task' o' h' =>
        obtain ⟨_, ho⟩ := fuzzStep_deterministic w s _ _ _ _ h h'
        exact absurd ho (by simp)
    | cons _ task' s'' tr' o' h' hrest' =>
        obtain ⟨ht, ho⟩ := fuzzStep_deterministic w s _ _ _ _ h h'
        simp only [Option.some.injEq] at ht
        simp only [Sum.inl.injEq] at ho
        subst ho
        obtain ⟨htr, hout⟩ := ih _ hrest'
        exact ⟨by rw [ht, htr], hout⟩

/-- `runSimulation`'s boundary: the body runs inside
`try { … } catch (EndSimulation&) {}`, so both a normal completion and
an `EndSimulation` throw return normally. -/
def runSimulationCatch (r : Except EndSimulation Unit) : Unit :=
  match r with
  | .ok _ => ()
  | .error .mk => ()

/-- `LLVMFuzzerTestOneInput`: call `runSimulation` on the replay oracle
over the input buffer, then `return 0`. -/
def llvmFuzzerTestOneInput (r : Except EndSimulation Unit) : ℤ :=
  match runSimulationCatch r with
  | () => 0

/-! ## State-passing view of consumeBytes

`ReplayRandomBytes::consumeBytes` mutates the member `bytes` only in the
in-bounds branch (`bytes = bytes.substr(size)`); the throw exits before
any assignment, so the member keeps its value while the exception
propagates. This view returns the call's result together with the
member's value after the call. -/

/-- `consumeBytes` with the post-call value of the `bytes` member: in
bounds, hand out the prefix and advance the view; otherwise throw,
leaving the member as the throw found it. -/
def consumeBytesImpl (st : List ℕ) (size : ℕ) :
    Except EndSimulation (List ℕ) × List ℕ :=
  if size ≤ st.length then (.ok (st.take size), st.drop size)
  else (.error .mk, st)

theorem consumeBytesImpl_consumeBytes (st : List ℕ) (size : ℕ) :
    consumeBytes st size =
      ((consumeBytesImpl st size).1).map fun pre =>
        (pre, (consumeBytesImpl st size).2) := by
  unfold consumeBytes consumeBytesImpl
  split <;> rfl

/-! ## sampleDistinctOrderedPair (simulation.actor.cpp lines 223–227) -/

/-- `sampleDistinctOrderedPair(sim, size)`:
`i = randomInt(0, size - 1); j = randomInt(i + 1, size); return {i, j}`,
over an arbitrary oracle `randInt`. -/
def sampleDistinctOrderedPair (randInt : ℤ → ℤ → ℤ) (size : ℤ) : ℤ × ℤ :=
  let i := randInt 0 (size - 1)
  let j := randInt (i + 1) size
  (i, j)

/-! ## Further helper lemmas -/

theorem leVal_lt (s : List ℕ) (hwf : BytesWF s) : leVal s < 256 ^ s.length := by
  induction s with
  | nil => simp [leVal]
  | cons b rest ih =>
    have hb : b < 256 := hwf b (List.mem_cons_self b rest)
    have hrest : BytesWF rest := fun x hx => hwf x (List.mem_cons_of_mem b hx)
    have := ih hrest
    simp only [leVal, List.length_cons, pow_succ]
    calc b + 256 * leVal rest < 256 + 256 * leVal rest := by omega
      _ = 256 * (leVal rest + 1) := by ring
      _ ≤ 256 * 256 ^ rest.length := by
          have : leVal rest + 1 ≤ 256 ^ rest.length := this
          exact Nat.mul_le_mul_left _ this
      _ = 256 ^ rest.length * 256 := by ring

theorem bytesRequired_256 : bytesRequired 256 = 2 := by
  rw [bytesRequired_of_ne_zero 256 (by norm_num)]
  norm_num
  rw [bytesRequired_of_ne_zero 1 (by norm_num)]
  norm_num [bytesRequired_zero]

/-! ## Claim theorems -/

/-- C1 counterexample: a single `random01` call whose inner oracle drew
exactly `1/2` (a legal draw in `[0,1)`). Recording writes
`⌊(1/2)·(2^32−1)⌋ = 2147483647` and replay returns
`2147483647/(2^32−1) ≠ 1/2`, so the replayed draw sequence is not the
inner one. -/
theorem c1_counterexample :
    (∀ c ∈ [CallRes.r01 (1/2)], CallResOK c) ∧
    replayResults [CallRes.r01 (1/2)] (recordedBytes [CallRes.r01 (1/2)]) ≠
      .ok (innerResults [CallRes.r01 (1/2)], []) := by
  constructor
  · intro c hc
    simp only [List.mem_singleton] at hc
    subst hc
    constructor <;> norm_num
  · have h : recordedBytes [CallRes.r01 (1/2)] = [255, 255, 255, 127] := by
      unfold recordedBytes recordRandom01Bytes
      norm_num [toLEBytes]
      decide
    rw [h]
    unfold replayResults replayRandom01 consumeBytes
    norm_num [leVal, replayResults, innerResults]

/-- C1 (amended): replaying the byte string recorded over any inner
oracle reproduces every `randomInt(lo,hi)` draw (with `lo < hi` and the
result in range) exactly, and reproduces each `random01` draw `x`
quantised to `⌊x·(2^32−1)⌋/(2^32−1)` — a value within `1/(2^32−1)`
below `x`, and equal to `x` exactly when `x·(2^32−1)` is an integer;
the whole string is consumed. -/
theorem c1_record_replay_roundTrip (crs : List CallRes)
    (hok : ∀ c ∈ crs, CallResOK c) :
    replayResults crs (recordedBytes crs) = .ok (crs.map replayedValue, []) ∧
    (∀ lo hi r : ℤ, replayedValue (.rInt lo hi r) = (r : ℚ)) ∧
    (∀ x : ℚ, 0 ≤ x → x < 1 →
      quantise01 x ≤ x ∧ x - quantise01 x < 1 / (2 ^ 32 - 1)) := by
  refine ⟨replayResults_recordedBytes crs hok, fun _ _ _ => rfl, ?_⟩
  intro x hx0 hx1
  have hden : (0 : ℚ) < 2 ^ 32 - 1 := by norm_num
  unfold quantise01
  constructor
  · rw [div_le_iff₀ hden]
    exact Int.floor_le _
  · rw [sub_lt_iff_lt_add, div_add_div_same, lt_div_iff₀ hden]
    have := Int.lt_floor_add_one (x * (2 ^ 32 - 1))
    linarith

/-- C1 witness: the round-trip theorem applied to the concrete history
`[random01 ↦ 1/2, randomInt(3,7) ↦ 5]`. -/
theorem c1_witness :
    replayResults [CallRes.r01 (1/2), CallRes.rInt 3 7 5]
        (recordedBytes [CallRes.r01 (1/2), CallRes.rInt 3 7 5]) =
      .ok ([quantise01 (1/2), (5 : ℚ)], []) := by
  have h := c1_record_replay_roundTrip [CallRes.r01 (1/2), CallRes.rInt 3 7 5]
    (by
      intro c hc
      simp only [List.mem_cons, List.mem_singleton] at hc
      rcases hc with h | h | h
      · subst h; constructor <;> norm_num
      · subst h; refine ⟨by norm_num, by norm_num, by norm_num⟩
      · cases h)
  have h1 := h.1
  simpa [replayedValue] using h1

/-- C2 counterexample: the all-ones buffer. `ReplayRandomBytes::random01`
divides by `numeric_limits<uint32_t>::max() = 2^32 − 1`, not `2^32`, so
it returns exactly `1` — outside `[0,1)` and different from `u/2^32`. -/
theorem c2_counterexample :
    replayRandom01 [255, 255, 255, 255] = .ok (1, []) ∧
    ¬((1 : ℚ) < 1) ∧
    (1 : ℚ) ≠ (leVal [255, 255, 255, 255] : ℚ) / 2 ^ 32 := by
  refine ⟨?_, by norm_num, ?_⟩
  · unfold replayRandom01 consumeBytes
    norm_num [leVal]
  · norm_num [leVal]

/-- C2 (amended): for every well-formed byte string with at least 4
unconsumed bytes, `ReplayRandomBytes::random01` consumes exactly 4
bytes, interprets them as a little-endian unsigned 32-bit integer `u`,
and returns `u/(2^32 − 1)` — a double in the closed interval `[0, 1]`. -/
theorem c2_replay_random01 (s : List ℕ) (hwf : BytesWF s)
    (hlen : 4 ≤ s.length) :
    replayRandom01 s = .ok ((leVal (s.take 4) : ℚ) / (2 ^ 32 - 1), s.drop 4) ∧
    (s.drop 4).length = s.length - 4 ∧
    0 ≤ (leVal (s.take 4) : ℚ) / (2 ^ 32 - 1) ∧
    (leVal (s.take 4) : ℚ) / (2 ^ 32 - 1) ≤ 1 := by
  have hden : (0 : ℚ) < 2 ^ 32 - 1 := by norm_num
  refine ⟨?_, by simp, ?_, ?_⟩
  · unfold replayRandom01 consumeBytes
    rw [if_pos hlen]
  · positivity
  · rw [div_le_one hden]
    have hwf4 : BytesWF (s.take 4) := fun b hb => hwf b (List.mem_of_mem_take hb)
    have hlt := leVal_lt (s.take 4) hwf4
    have hlen4 : (s.take 4).length = 4 := by simp; omega
    rw [hlen4] at hlt
    have : (leVal (s.take 4) : ℚ) < 256 ^ 4 := by exact_mod_cast hlt
    norm_num at this ⊢
    linarith

/-- C2 witness: the amended theorem applied to the buffer
`[1,0,0,0,9]`: the draw consumes 4 bytes, leaves `[9]`, and returns
`1/(2^32−1)`. -/
theorem c2_witness :
    replayRandom01 [1, 0, 0, 0, 9] =
      .ok ((leVal ([1, 0, 0, 0, 9].take 4) : ℚ) / (2 ^ 32 - 1), [9]) := by
  have h := c2_replay_random01 [1, 0, 0, 0, 9] (by decide) (by decide)
  exact h.1

/-- C3 counterexample: `randomInt(0, 256)` (so `hi − lo = 256`, a legal
call with `lo < hi`). The recorder appends `bytesRequired(256) = 2`
bytes, but `⌈log₂₅₆ 256⌉ = 1`; likewise `hi − lo = 256 ≤ 2^(8·1)`, yet
the encoding does not use 1 byte. -/
theorem c3_counterexample :
    (0 : ℤ) < 256 ∧
    (recordRandomIntBytes 0 256 0).length = 2 ∧
    Nat.clog 256 (((256 : ℤ) - 0).toNat) = 1 ∧
    ((256 : ℤ) - 0).toNat ≤ 2 ^ (8 * 1) ∧
    (recordRandomIntBytes 0 256 0).length ≠ 1 := by
  have htn : ((256 : ℤ) - 0).toNat = 256 := by decide
  have hbr : bytesRequired ((256 : ℤ) - 0).toNat = 2 := by
    rw [htn]; exact bytesRequired_256
  refine ⟨by norm_num, ?_, ?_, by decide, ?_⟩
  · unfold recordRandomIntBytes
    rw [toLEBytes_length, hbr]
  · rw [htn]
    exact Nat.clog_eq_one (n := 256) (b := 256) (by norm_num) (by norm_num)
  · unfold recordRandomIntBytes
    rw [toLEBytes_length, hbr]
    norm_num

/-- C3 (amended): for every `randomInt(lo, hi)` call with `lo < hi`, the
recording oracle appends, and the replay oracle consumes, exactly
`k = bytesRequired(hi − lo) = ⌊log₂₅₆(hi − lo)⌋ + 1` bytes;
equivalently, whenever `2^(8(k−1)) ≤ hi − lo < 2^(8k)` the encoding
uses exactly `k` bytes. -/
theorem c3_encoding_byte_count (lo hi r : ℤ) (s : List ℕ) (hlh : lo < hi) :
    (recordRandomIntBytes lo hi r).length = bytesRequired (hi - lo).toNat ∧
    bytesRequired (hi - lo).toNat = Nat.log 256 (hi - lo).toNat + 1 ∧
    (bytesRequired (hi - lo).toNat ≤ s.length → ∃ v,
      replayRandomInt lo hi s =
        .ok (v, s.drop (bytesRequired (hi - lo).toNat))) ∧
    (∀ k : ℕ, 256 ^ (k - 1) ≤ (hi - lo).toNat → (hi - lo).toNat < 256 ^ k →
      1 ≤ k → bytesRequired (hi - lo).toNat = k) := by
  have hdpos : (hi - lo).toNat ≠ 0 := by omega
  refine ⟨toLEBytes_length _ _, bytesRequired_eq_log _ hdpos, ?_, ?_⟩
  · intro hle
    unfold replayRandomInt consumeBytes
    rw [if_pos hle]
    exact ⟨_, rfl⟩
  · intro k hk1 hk2 hk3
    rw [bytesRequired_eq_log _ hdpos]
    have hlog := Nat.log_eq_of_pow_le_of_lt_pow (b := 256)
      (n := (hi - lo).toNat) (m := k - 1) hk1 (by
        have : k - 1 + 1 = k := by omega
        rw [this]; exact hk2)
    omega

/-- C3 witness: the amended theorem applied to `randomInt(10, 266)` with
a 3-byte buffer: record appends 2 bytes and replay consumes exactly 2,
leaving 1. -/
theorem c3_witness :
    (recordRandomIntBytes 10 266 10).length = bytesRequired ((266 : ℤ) - 10).toNat ∧
    ∃ v, replayRandomInt 10 266 [7, 0, 3] =
      .ok (v, [7, 0, 3].drop (bytesRequired ((266 : ℤ) - 10).toNat)) := by
  have h := c3_encoding_byte_count 10 266 10 [7, 0, 3] (by norm_num)
  refine ⟨h.1, h.2.2.1 ?_⟩
  have htn : ((266 : ℤ) - 10).toNat = 256 := by decide
  have hbr : bytesRequired ((266 : ℤ) - 10).toNat = 2 := by
    rw [htn]; exact bytesRequired_256
  rw [hbr]
  norm_num

/-- C4: under `SchedulingStrategy::InOrder`, one iteration of
`RandomSim::run` dispatches the front of the min-heap, which is the
pending task with the lexicographically least `(deadline, sequence)`
pair (`operator>` compares `make_pair(t, stable)`); consequently a task
with an equal-deadline, smaller-sequence competitor still pending is
never the one dispatched, so equal-deadline tasks resume in enqueue
order. The heap invariant is the one `std::push_heap`/`std::pop_heap`
maintain for `tasks_`. -/
theorem c4_inOrder_dispatch_min (s : RandomSimState) (choice : ℕ)
    (hstrat : s.strategy = .inOrder) (hheap : IsMinHeap s.tasks)
    (hrun : s.running = true) (hne : s.tasks.size ≠ 0) :
    ∃ s', runStep s choice = some (s.tasks[0]!, s') ∧
      (∀ i, i < s.tasks.size → Task.le s.tasks[0]! s.tasks[i]!) ∧
      (∀ i j, i < s.tasks.size → j < s.tasks.size →
        (s.tasks[i]!).t = (s.tasks[j]!).t →
        (s.tasks[i]!).stable < (s.tasks[j]!).stable →
        s.tasks[0]! ≠ s.tasks[j]!) := by
  have hpop : heapPop s.tasks =
      some (s.tasks[0]!, siftDown ((s.tasks.swap! 0 (s.tasks.size - 1)).pop) 0) := by
    unfold heapPop
    rw [if_neg hne]
  have hstep : runStep s choice =
      some (s.tasks[0]!,
        { s with now := max (s.tasks[0]!).t s.now,
                 tasks := siftDown ((s.tasks.swap! 0 (s.tasks.size - 1)).pop) 0 }) := by
    unfold runStep
    rw [if_pos ⟨hrun, hne⟩, hstrat]
    rw [hpop]
  refine ⟨_, hstep, ?_, ?_⟩
  · exact isMinHeap_root_le s.tasks hheap
  · intro i j hi hj ht hstab heq
    have h1 := isMinHeap_root_le s.tasks hheap i hi
    rw [heq] at h1
    rcases h1 with h | ⟨he, hs⟩
    · rw [ht] at h
      exact absurd h (lt_irrefl _)
    · rw [ht] at he
      omega

/-- C4 witness: the dispatch theorem applied to a concrete two-element
min-heap with equal deadlines; the front (sequence 0) is dispatched. -/
theorem c4_witness :
    ∃ s', runStep
      { now := 0, tasks := #[⟨5, 0⟩, ⟨5, 1⟩], stable := 2, running := true,
        maxBuggifiedDelay := 0, strategy := .inOrder } 0 =
      some ((#[(⟨5, 0⟩ : Task), ⟨5, 1⟩])[0]!, s') := by
  obtain ⟨s', h1, _, _⟩ := c4_inOrder_dispatch_min
    { now := 0, tasks := #[⟨5, 0⟩, ⟨5, 1⟩], stable := 2, running := true,
      maxBuggifiedDelay := 0, strategy := .inOrder } 0 rfl
    (by
      intro i hi
      fin_cases i
      · simp at hi
      · simp [Task.gt])
    rfl (by norm_num)
  exact ⟨s', h1⟩

/-- C5: the virtual clock starts at 0 (`double now_ = 0`), and under
either scheduling strategy the `now_` values observed across successive
dispatches of `RandomSim::run` form a non-decreasing sequence: each
dispatch sets `now_ = std::max(task.t, now_)` and nothing else writes
`now_`. The trace quantifies over every oracle-choice sequence and every
pattern of `delay` enqueues by the resumed continuations. -/
theorem c5_virtual_time_monotone :
    (∀ (strategy : SchedulingStrategy) (ctorDraw : ℚ),
      (RandomSimState.init strategy ctorDraw).now = 0) ∧
    ∀ (s : RandomSimState) (steps : List (ℕ × List ℚ)),
      List.Chain' (· ≤ ·) (s.now :: runTrace s steps) := by
  refine ⟨fun _ _ => rfl, ?_⟩
  intro s steps
  induction steps generalizing s with
  | nil => simp [runTrace]
  | cons step rest ih =>
    obtain ⟨choice, delays⟩ := step
    unfold runTrace
    cases h : runStep s choice with
    | none => simp
    | some v =>
        obtain ⟨task, s'⟩ := v
        simp only []
        refine List.chain'_cons.2 ⟨?_, ih (delays.foldl delayEnqueue s')⟩
        rw [foldl_delayEnqueue_now]
        exact runStep_now_mono s choice task s' h

/-- C6: `RandomSim`'s constructor sets
`max_buggified_delay = 0.2 · random01()` under InOrder and `0` under
RandomOrder, so `max_buggified_delay ∈ [0, 0.2)`; on each `delay(d)`
call, when `max_buggified_delay > 0` and the coin draw is below `0.25`,
`max_buggified_delay · j^1000` is added for a fresh draw `j`; the
perturbation added is always in `[0, max_buggified_delay)` when
`max_buggified_delay > 0`, and zero when it is 0. Draws satisfy the
oracle contract `[0, 1)`. -/
theorem c6_buggification_bound (strategy : SchedulingStrategy)
    (r c j seconds m : ℚ)
    (hm : m = (RandomSimState.init strategy r).maxBuggifiedDelay)
    (hr0 : 0 ≤ r) (hr1 : r < 1) (hj0 : 0 ≤ j) (hj1 : j < 1) :
    m = (if strategy = .inOrder then 0.2 * r else 0) ∧
    0 ≤ m ∧ m < 0.2 ∧
    delaySeconds m c j seconds = seconds + delayPerturbation m c j ∧
    0 ≤ delayPerturbation m c j ∧
    (0 < m → delayPerturbation m c j < m) ∧
    (m = 0 → delayPerturbation m c j = 0) ∧
    (0 < m → c < 0.25 →
      delaySeconds m c j seconds = seconds + m * j ^ 1000) := by
  have hme : m = (if strategy = .inOrder then 0.2 * r else 0) := hm
  have hjpow0 : 0 ≤ j ^ 1000 := pow_nonneg hj0 1000
  have hjpow1 : j ^ 1000 < 1 := pow_lt_one₀ hj0 hj1 (by norm_num)
  refine ⟨hme, ?_, ?_, ?_, ?_, ?_, ?_, ?_⟩
  · rw [hme]
    split
    · exact mul_nonneg (by norm_num) hr0
    · exact le_refl 0
  · rw [hme]
    split
    · nlinarith
    · norm_num
  · unfold delaySeconds delayPerturbation delaySeconds
    split <;> ring
  · unfold delayPerturbation delaySeconds
    split
    · rename_i hcond
      have : 0 ≤ m * j ^ 1000 := mul_nonneg (le_of_lt hcond.1) hjpow0
      linarith
    · exact le_refl 0
  · intro hmpos
    unfold delayPerturbation delaySeconds
    split
    · rename_i hcond
      have : m * j ^ 1000 < m * 1 := by
        exact mul_lt_mul_of_pos_left hjpow1 hmpos
      rw [mul_one] at this
      linarith
    · exact hmpos
  · intro hm0
    unfold delayPerturbation delaySeconds
    rw [if_neg]
    intro hcond
    rw [hm0] at hcond
    exact absurd hcond.1 (lt_irrefl 0)
  · intro hmpos hc
    unfold delaySeconds
    rw [if_pos ⟨hmpos, hc⟩]

/-- C6 witness: the bound theorem applied at `strategy = InOrder`,
constructor draw `1/2`, coin `0`, jitter `0`. -/
theorem c6_witness :
    0 ≤ (RandomSimState.init .inOrder (1/2)).maxBuggifiedDelay ∧
    (RandomSimState.init .inOrder (1/2)).maxBuggifiedDelay < 0.2 := by
  obtain ⟨_, h2, h3, _⟩ := c6_buggification_bound .inOrder (1/2) 0 0 0
    ((RandomSimState.init .inOrder (1/2)).maxBuggifiedDelay) rfl
    (by norm_num) (by norm_num) (by norm_num) (by norm_num)
  exact ⟨h2, h3⟩

/-- C7: a replay draw fails with the `EndSimulation` signal exactly when
the remaining buffer is shorter than the read (4 bytes for `random01`,
`bytesRequired(hi−lo)` bytes for `randomInt`); `runSimulation` catches
the signal (`catch (EndSimulation&) {}`), and `LLVMFuzzerTestOneInput`
then returns 0, whatever the simulation's result was. -/
theorem c7_endOfInput_boundary :
    (∀ s : List ℕ, (replayRandom01 s = .error .mk ↔ s.length < 4)) ∧
    (∀ (lo hi : ℤ) (s : List ℕ), lo < hi →
      (replayRandomInt lo hi s = .error .mk ↔
        s.length < bytesRequired (hi - lo).toNat)) ∧
    (∀ r : Except EndSimulation Unit, llvmFuzzerTestOneInput r = 0) := by
  refine ⟨?_, ?_, ?_⟩
  · intro s
    by_cases h : 4 ≤ s.length
    · simp [replayRandom01, consumeBytes, h]
    · simp [replayRandom01, consumeBytes, h]
      omega
  · intro lo hi s _
    by_cases h : bytesRequired (hi - lo).toNat ≤ s.length
    · simp [replayRandomInt, consumeBytes, h]
    · simp [replayRandomInt, consumeBytes, h]
      omega
  · intro r
    cases r with
    | ok a => rfl
    | error e => cases e; rfl

/-- C7 witness: `randomInt(0, 2)` on an empty buffer fails with
`EndSimulation` (1 byte needed, 0 available). -/
theorem c7_witness : replayRandomInt 0 2 [] = .error .mk := by
  refine (c7_endOfInput_boundary.2.1 0 2 [] (by norm_num)).mpr ?_
  have h2 : ((2 : ℤ) - 0).toNat = 2 := by decide
  rw [h2, bytesRequired_of_ne_zero 2 (by norm_num)]
  norm_num

/-- C8: replay-driven fuzz executions are deterministic: any two
complete runs of the dispatch loop from the same state — same input
byte buffer, same scheduler state, same (deterministic) workload
continuations `w` — dispatch the identical task sequence and end with
the identical outcome. Hence two invocations of
`LLVMFuzzerTestOneInput` on the same buffer coincide. -/
theorem c8_fuzz_determinism
    (w : FuzzState → Task → Except EndSimulation FuzzState)
    (s₀ : FuzzState) (tr₁ tr₂ : List Task) (o₁ o₂ : FuzzOutcome)
    (h₁ : FuzzRun w s₀ tr₁ o₁) (h₂ : FuzzRun w s₀ tr₂ o₂) :
    tr₁ = tr₂ ∧ o₁ = o₂ :=
  fuzzRun_deterministic w s₀ tr₁ tr₂ o₁ o₂ h₁ h₂

/-- C8 witness: determinism applied to two complete runs from the
empty-task initial state on the empty buffer. -/
theorem c8_witness :
    ([] : List Task) = [] ∧ FuzzOutcome.quiescent = FuzzOutcome.quiescent := by
  have hrun : FuzzRun (fun s _ => Except.ok s)
      ⟨{ now := 0, tasks := #[], stable := 0, running := true,
         maxBuggifiedDelay := 0, strategy := .randomOrder }, []⟩ [] .quiescent :=
    FuzzRun.done _ _ (FuzzStep.halt _ (by simp))
  exact c8_fuzz_determinism _ _ _ _ _ _ hrun hrun

/-- C9: when `consumeBytes` throws `EndSimulation`, the length check has
failed before either `substr` assignment ran, so the `bytes` member is
unchanged — the failing call consumes zero bytes, and the remaining
buffer before and after the failed call is identical. -/
theorem c9_consumeBytes_error_atomic (st : List ℕ) (size : ℕ)
    (h : (consumeBytesImpl st size).1 = .error .mk) :
    (consumeBytesImpl st size).2 = st ∧ st.length < size := by
  unfold consumeBytesImpl at h ⊢
  by_cases hle : size ≤ st.length
  · rw [if_pos hle] at h
    exact absurd h (by simp)
  · rw [if_neg hle]
    exact ⟨rfl, by omega⟩

/-- C9 witness: atomicity applied to a 3-byte read from a 2-byte
buffer. -/
theorem c9_witness :
    (consumeBytesImpl [1, 2] 3).2 = [1, 2] ∧ [1, 2].length < 3 :=
  c9_consumeBytes_error_atomic [1, 2] 3 (by decide)

/-- C10: for every `size ≥ 2` and every oracle whose
`randomInt(lo, hi)` obeys `lo ≤ result < hi`, `sampleDistinctOrderedPair`
returns `(i, j)` with `0 ≤ i < j ≤ size − 1` — distinct, in-bounds
indices — and both of its `randomInt` calls have `lo < hi`. -/
theorem c10_sampleDistinctOrderedPair (randInt : ℤ → ℤ → ℤ) (size : ℤ)
    (hsize : 2 ≤ size)
    (hcontract : ∀ lo hi, lo < hi → lo ≤ randInt lo hi ∧ randInt lo hi < hi) :
    (0 : ℤ) < size - 1 ∧
    randInt 0 (size - 1) + 1 < size ∧
    0 ≤ (sampleDistinctOrderedPair randInt size).1 ∧
    (sampleDistinctOrderedPair randInt size).1 <
      (sampleDistinctOrderedPair randInt size).2 ∧
    (sampleDistinctOrderedPair randInt size).2 ≤ size - 1 := by
  have h1 : (0 : ℤ) < size - 1 := by omega
  obtain ⟨hi0, hi1⟩ := hcontract 0 (size - 1) h1
  have h2 : randInt 0 (size - 1) + 1 < size := by omega
  obtain ⟨hj0, hj1⟩ := hcontract (randInt 0 (size - 1) + 1) size h2
  simp only [sampleDistinctOrderedPair]
  exact ⟨h1, h2, hi0, by omega, by omega⟩

/-- C10 witness: the pair theorem applied to the always-minimum oracle
with `size = 2`. -/
theorem c10_witness :
    0 ≤ (sampleDistinctOrderedPair (fun lo _ => lo) 2).1 ∧
    (sampleDistinctOrderedPair (fun lo _ => lo) 2).1 <
      (sampleDistinctOrderedPair (fun lo _ => lo) 2).2 ∧
    (sampleDistinctOrderedPair (fun lo _ => lo) 2).2 ≤ (2 : ℤ) - 1 := by
  obtain ⟨_, _, h3, h4, h5⟩ := c10_sampleDistinctOrderedPair
    (fun lo _ => lo) 2 (by norm_num)
    (fun lo hi h => ⟨le_refl lo, h⟩)
  exact ⟨h3, h4, h5⟩

end Simulation
